import Mathlib

/-!
Verification development for the condition-recovery subsystem of a
decompiler (`condition_processor.py`): conversion between IR (AIL)
expressions and a boolean-algebra term language (claripy ASTs), edge
predicate extraction, reaching/guarding condition recovery over acyclic
region graphs, and the boolean simplification passes.

Modelling conventions:
* The boolean-algebra term language `CTerm` models claripy ASTs (one
  base type covering boolean- and bitvector-sorted terms, as in claripy;
  `And`/`Or` are n-ary).  Terms are compared structurally; claripy
  interns ASTs by structural identity, so python `is`/`==`/dict-key
  comparisons on ASTs correspond to structural equality here.
* Symbol names are modelled as the data they are deterministically
  rendered from: the source builds each symbol-name string with an
  f-string over the originating AIL expression (its `repr`) and
  disambiguating suffixes, and that rendering distinguishes the modelled
  expressions, so we keep the generating data itself as the name.
* The claripy constructors `Not`/`And`/`Or`/`BVV` are modelled by
  `cNot`/`CTerm.and`/`CTerm.or`/`cBVV`.  Of claripy's construction-time
  simplifications only the double-negation collapse `Not(Not(x)) = x` is
  modelled (in `cNot`); the source relies on it (for example in
  `have_opposite_edge_conditions`).  Comparison inversion
  (`Not(a == b) = a != b`) is not modelled: negations of equalities stay
  as `not`-nodes, which is semantically identical.
* External oracles and utilities (the sympy boolean minimizer, the SMT
  satisfiability oracle, the dominance and topological-sort utilities)
  are not part of the sources; following the spec (§6) they are passed
  as explicit parameters or spec-modelled, as marked below.
* Graph nodes are AIL blocks, identified by their (unique) address;
  edges are address pairs tagged with an edge type.
-/

namespace CondProc

/-- AIL binary-operation tags.  `cmpEQ` models the `"CmpEQ"` entry of the
IR-to-algebra translation table `_ail2claripy_op_mapping`; `other tag`
models any operator with no translation-table entry (the long tail that
falls through to the `_DUMMY_` catch-all, identical in behaviour to the
explicit `_dummy_bvs` rows of the table). -/
inductive AilOp where
  | cmpEQ
  | other (tag : Nat)
deriving DecidableEq

/-- AIL expressions (the fragment exercised by this development):
constants, registers (with an `idx` and no associated variable, the way
the exception-edge predicates build them), and binary operations. -/
inductive AilExpr where
  | const (value : Nat) (bits : Nat)
  | register (idx : Nat) (regOffset : Nat) (bits : Nat)
  | binop (op : AilOp) (left : AilExpr) (right : AilExpr) (bits : Nat)
deriving DecidableEq

/-- Bit width of an AIL expression (`expr.bits`). -/
def AilExpr.bits : AilExpr → Nat
  | .const _ b => b
  | .register _ _ b => b
  | .binop _ _ _ b => b

/-- Claripy symbol names.  The source builds these names as strings with
f-strings; each constructor records exactly the data interpolated into
the corresponding f-string (the rendering is injective on the modelled
data, so names are kept as the generating data). -/
inductive SymName where
  /-- `f"ailexpr_{condition!r}"` (used by `_dummy_bvs`). -/
  | ailexprE (e : AilExpr)
  /-- `f"ailexpr_{condition!r}-{condition.idx}-{ins_addr:x}"` (register leaves
  with no associated variable). -/
  | ailexprReg (e : AilExpr) (idx : Nat) (insAddr : Nat)
  /-- `f"jump_table_{jumptable_head_addr:x}"` (`create_jump_target_var`). -/
  | jumpTable (addr : Nat)
  /-- `f"bool_from_bv1_{r.args[0]}"` (the `must_bool` 1-bit-BV-to-bool coercion). -/
  | boolFromBv1 (inner : SymName)
  /-- `f"ailexpr_from_bool_{r!r}"` (the `nobool` bool-to-1-bit-BV coercion;
  keyed here by the originating AIL expression, which the source also
  records in the mapping at this point). -/
  | fromBoolE (e : AilExpr)
deriving DecidableEq

/-- Claripy AST terms.  Boolean- and bitvector-sorted ASTs share one base
class in claripy, and likewise one type here; `and`/`or` are n-ary. -/
inductive CTerm where
  | boolS (name : SymName)
  | boolV (b : Bool)
  | bvs (name : SymName) (bits : Nat)
  | bvv (value : Nat) (bits : Nat)
  | not (a : CTerm)
  | and (args : List CTerm)
  | or (args : List CTerm)
  | eq (a : CTerm) (b : CTerm)

mutual

/-- Structural decidable equality for `CTerm` (claripy ASTs are interned
by structure, so python identity on them is structural equality). -/
def CTerm.deq : (a b : CTerm) → Decidable (a = b)
  | .boolS n, .boolS m =>
    match decEq n m with
    | isTrue h => isTrue (by rw [h])
    | isFalse h => isFalse (by intro hh; cases hh; exact h rfl)
  | .boolV x, .boolV y =>
    match decEq x y with
    | isTrue h => isTrue (by rw [h])
    | isFalse h => isFalse (by intro hh; cases hh; exact h rfl)
  | .bvs n x, .bvs m y =>
    match decEq n m, decEq x y with
    | isTrue h1, isTrue h2 => isTrue (by rw [h1, h2])
    | isFalse h1, _ => isFalse (by intro hh; cases hh; exact h1 rfl)
    | _, isFalse h2 => isFalse (by intro hh; cases hh; exact h2 rfl)
  | .bvv v x, .bvv w y =>
    match decEq v w, decEq x y with
    | isTrue h1, isTrue h2 => isTrue (by rw [h1, h2])
    | isFalse h1, _ => isFalse (by intro hh; cases hh; exact h1 rfl)
    | _, isFalse h2 => isFalse (by intro hh; cases hh; exact h2 rfl)
  | .not a, .not b =>
    match CTerm.deq a b with
    | isTrue h => isTrue (by rw [h])
    | isFalse h => isFalse (by intro hh; cases hh; exact h rfl)
  | .and l1, .and l2 =>
    match CTerm.listDeq l1 l2 with
    | isTrue h => isTrue (by rw [h])
    | isFalse h => isFalse (by intro hh; cases hh; exact h rfl)
  | .or l1, .or l2 =>
    match CTerm.listDeq l1 l2 with
    | isTrue h => isTrue (by rw [h])
    | isFalse h => isFalse (by intro hh; cases hh; exact h rfl)
  | .eq a b, .eq c d =>
    match CTerm.deq a c, CTerm.deq b d with
    | isTrue h1, isTrue h2 => isTrue (by rw [h1, h2])
    | isFalse h1, _ => isFalse (by intro hh; cases hh; exact h1 rfl)
    | _, isFalse h2 => isFalse (by intro hh; cases hh; exact h2 rfl)
  | .boolS _, .boolV _ => isFalse (by intro h; cases h)
  | .boolS _, .bvs _ _ => isFalse (by intro h; cases h)
  | .boolS _, .bvv _ _ => isFalse (by intro h; cases h)
  | .boolS _, .not _ => isFalse (by intro h; cases h)
  | .boolS _, .and _ => isFalse (by intro h; cases h)
  | .boolS _, .or _ => isFalse (by intro h; cases h)
  | .boolS _, .eq _ _ => isFalse (by intro h; cases h)
  | .boolV _, .boolS _ => isFalse (by intro h; cases h)
  | .boolV _, .bvs _ _ => isFalse (by intro h; cases h)
  | .boolV _, .bvv _ _ => isFalse (by intro h; cases h)
  | .boolV _, .not _ => isFalse (by intro h; cases h)
  | .boolV _, .and _ => isFalse (by intro h; cases h)
  | .boolV _, .or _ => isFalse (by intro h; cases h)
  | .boolV _, .eq _ _ => isFalse (by intro h; cases h)
  | .bvs _ _, .boolS _ => isFalse (by intro h; cases h)
  | .bvs _ _, .boolV _ => isFalse (by intro h; cases h)
  | .bvs _ _, .bvv _ _ => isFalse (by intro h; cases h)
  | .bvs _ _, .not _ => isFalse (by intro h; cases h)
  | .bvs _ _, .and _ => isFalse (by intro h; cases h)
  | .bvs _ _, .or _ => isFalse (by intro h; cases h)
  | .bvs _ _, .eq _ _ => isFalse (by intro h; cases h)
  | .bvv _ _, .boolS _ => isFalse (by intro h; cases h)
  | .bvv _ _, .boolV _ => isFalse (by intro h; cases h)
  | .bvv _ _, .bvs _ _ => isFalse (by intro h; cases h)
  | .bvv _ _, .not _ => isFalse (by intro h; cases h)
  | .bvv _ _, .and _ => isFalse (by intro h; cases h)
  | .bvv _ _, .or _ => isFalse (by intro h; cases h)
  | .bvv _ _, .eq _ _ => isFalse (by intro h; cases h)
  | .not _, .boolS _ => isFalse (by intro h; cases h)
  | .not _, .boolV _ => isFalse (by intro h; cases h)
  | .not _, .bvs _ _ => isFalse (by intro h; cases h)
  | .not _, .bvv _ _ => isFalse (by intro h; cases h)
  | .not _, .and _ => isFalse (by intro h; cases h)
  | .not _, .or _ => isFalse (by intro h; cases h)
  | .not _, .eq _ _ => isFalse (by intro h; cases h)
  | .and _, .boolS _ => isFalse (by intro h; cases h)
  | .and _, .boolV _ => isFalse (by intro h; cases h)
  | .and _, .bvs _ _ => isFalse (by intro h; cases h)
  | .and _, .bvv _ _ => isFalse (by intro h; cases h)
  | .and _, .not _ => isFalse (by intro h; cases h)
  | .and _, .or _ => isFalse (by intro h; cases h)
  | .and _, .eq _ _ => isFalse (by intro h; cases h)
  | .or _, .boolS _ => isFalse (by intro h; cases h)
  | .or _, .boolV _ => isFalse (by intro h; cases h)
  | .or _, .bvs _ _ => isFalse (by intro h; cases h)
  | .or _, .bvv _ _ => isFalse (by intro h; cases h)
  | .or _, .not _ => isFalse (by intro h; cases h)
  | .or _, .and _ => isFalse (by intro h; cases h)
  | .or _, .eq _ _ => isFalse (by intro h; cases h)
  | .eq _ _, .boolS _ => isFalse (by intro h; cases h)
  | .eq _ _, .boolV _ => isFalse (by intro h; cases h)
  | .eq _ _, .bvs _ _ => isFalse (by intro h; cases h)
  | .eq _ _, .bvv _ _ => isFalse (by intro h; cases h)
  | .eq _ _, .not _ => isFalse (by intro h; cases h)
  | .eq _ _, .and _ => isFalse (by intro h; cases h)
  | .eq _ _, .or _ => isFalse (by intro h; cases h)

/-- Structural decidable equality for lists of `CTerm`. -/
def CTerm.listDeq : (x y : List CTerm) → Decidable (x = y)
  | [], [] => isTrue rfl
  | [], _ :: _ => isFalse (by intro h; cases h)
  | _ :: _, [] => isFalse (by intro h; cases h)
  | x :: xs, y :: ys =>
    match CTerm.deq x y with
    | isTrue hx =>
      match CTerm.listDeq xs ys with
      | isTrue hl => isTrue (by rw [hx, hl])
      | isFalse hl => isFalse (by intro h; cases h; exact hl rfl)
    | isFalse hx => isFalse (by intro h; cases h; exact hx rfl)

end

instance : DecidableEq CTerm := CTerm.deq

/-- Sort of a claripy AST: `true` for boolean-sorted terms (`Bool` ASTs),
`false` for bitvector-sorted terms (`BV` ASTs). -/
def CTerm.isBoolSort : CTerm → Bool
  | .boolS _ => true
  | .boolV _ => true
  | .bvs _ _ => false
  | .bvv _ _ => false
  | .not _ => true
  | .and _ => true
  | .or _ => true
  | .eq _ _ => true

/-- Bit width of a bitvector-sorted term (`ast.size()`); 0 on
boolean-sorted terms (where the source never asks for it). -/
def CTerm.bitsOf : CTerm → Nat
  | .bvs _ b => b
  | .bvv _ b => b
  | _ => 0

mutual

/-- Depth of a claripy AST (`ast.depth`): leaves have depth 1, an
operator node has depth one more than its deepest argument. -/
def CTerm.depth : CTerm → Nat
  | .boolS _ => 1
  | .boolV _ => 1
  | .bvs _ _ => 1
  | .bvv _ _ => 1
  | .not a => 1 + a.depth
  | .and l => 1 + CTerm.depthList l
  | .or l => 1 + CTerm.depthList l
  | .eq a b => 1 + max a.depth b.depth

/-- Maximum depth over a list of arguments (0 for no arguments). -/
def CTerm.depthList : List CTerm → Nat
  | [] => 0
  | x :: xs => max x.depth (CTerm.depthList xs)

end

mutual

/-- The leaf-symbol names occurring in a term (`ast.variables`, as a list
with possible repeats; the set view is taken via `dedup`/`contains`). -/
def CTerm.varsIn : CTerm → List SymName
  | .boolS n => [n]
  | .boolV _ => []
  | .bvs n _ => [n]
  | .bvv _ _ => []
  | .not a => a.varsIn
  | .and l => CTerm.varsInList l
  | .or l => CTerm.varsInList l
  | .eq a b => a.varsIn ++ b.varsIn

/-- Concatenated leaf-symbol names of a list of terms. -/
def CTerm.varsInList : List CTerm → List SymName
  | [] => []
  | x :: xs => x.varsIn ++ CTerm.varsInList xs

end

/-- Number of distinct free symbols of a term (`len(ast.variables)`). -/
def CTerm.varCount (c : CTerm) : Nat := c.varsIn.dedup.length

/-- Set equality of the `variables` frozensets of two terms
(`a.variables == b.variables`). -/
def varSetEq (a b : CTerm) : Bool :=
  a.varsIn.all (fun x => b.varsIn.contains x) &&
    b.varsIn.all (fun x => a.varsIn.contains x)

/-- An assignment of values to symbols: a boolean value for
boolean-sorted symbols and a natural (reduced modulo the width at each
use) for bitvector-sorted symbols. -/
structure Assignment where
  boolVal : SymName → Bool
  bvVal : SymName → Nat

/-- Value of a bitvector-sorted term under an assignment (reduced modulo
`2 ^ width`); 0 on boolean-sorted terms. -/
def evalV (σ : Assignment) : CTerm → Nat
  | .bvs n b => σ.bvVal n % 2 ^ b
  | .bvv v b => v % 2 ^ b
  | _ => 0

mutual

/-- Truth value of a boolean-sorted term under an assignment (`false` on
ill-sorted uses of bitvector terms, which the modelled code never makes). -/
def evalB (σ : Assignment) : CTerm → Bool
  | .boolS n => σ.boolVal n
  | .boolV b => b
  | .bvs _ _ => false
  | .bvv _ _ => false
  | .not a => !evalB σ a
  | .and l => evalBAll σ l
  | .or l => evalBAny σ l
  | .eq a b => if a.isBoolSort then evalB σ a == evalB σ b else evalV σ a == evalV σ b

/-- Conjunction of the truth values of a list of terms. -/
def evalBAll (σ : Assignment) : List CTerm → Bool
  | [] => true
  | x :: xs => evalB σ x && evalBAll σ xs

/-- Disjunction of the truth values of a list of terms. -/
def evalBAny (σ : Assignment) : List CTerm → Bool
  | [] => false
  | x :: xs => evalB σ x || evalBAny σ xs

end

/-- `claripy.true()`. -/
def cTrue : CTerm := .boolV true

/-- `claripy.false()`. -/
def cFalse : CTerm := .boolV false

/-- The claripy `Not` constructor.  Models the construction-time
double-negation collapse `Not(Not(x)) = x` of claripy's boolean `Not`
simplifier (behaviour the source relies on, for example in
`have_opposite_edge_conditions`). -/
def cNot : CTerm → CTerm
  | .not a => a
  | a => .not a

/-- The claripy `BVV` constructor: the concrete value is reduced modulo
`2 ^ bits` at construction. -/
def cBVV (value : Nat) (bits : Nat) : CTerm := .bvv (value % 2 ^ bits) bits

/-- AIL statements (the fragment exercised here): unconditional jumps,
conditional jumps, and a generic non-terminator statement. -/
inductive AilStmt where
  | jump (target : AilExpr) (insAddr : Nat)
  | condJump (condition : AilExpr) (trueTarget : AilExpr) (falseTarget : AilExpr) (insAddr : Nat)
  | assign (id : Nat)
deriving DecidableEq

/-- Whether a statement is an `ailment.Stmt.ConditionalJump`. -/
def AilStmt.isCondJump : AilStmt → Bool
  | .condJump _ _ _ _ => true
  | _ => false

/-- A graph node: an AIL block (address plus statement list).  Blocks are
identified by their address (distinct nodes of one region graph have
distinct addresses). -/
structure Node where
  addr : Nat
  stmts : List AilStmt
deriving DecidableEq

/-- Edge kinds: ordinary transitions (the `get("type", "transition")`
default) and exception edges. -/
inductive EdgeType where
  | transition
  | exception
deriving DecidableEq

/-- A directed edge between two block addresses. -/
structure CEdge where
  src : Nat
  dst : Nat
  etype : EdgeType
deriving DecidableEq

/-- A region control-flow graph: blocks plus typed edges between their
addresses. -/
structure CFG where
  nodes : List Node
  edges : List CEdge
deriving DecidableEq

/-- Successor addresses of a block address, in edge-list order
(`graph.successors`). -/
def successorAddrs (g : CFG) (a : Nat) : List Nat :=
  (g.edges.filter (fun e => e.src == a)).map (·.dst)

/-- Predecessor addresses of a block address, in edge-list order
(`graph.predecessors`). -/
def predecessorAddrs (g : CFG) (a : Nat) : List Nat :=
  (g.edges.filter (fun e => e.dst == a)).map (·.src)

/-- Whether the graph has an edge between two addresses. -/
def hasEdge (g : CFG) (s d : Nat) : Bool :=
  g.edges.any (fun e => e.src == s && e.dst == d)

/-- The recorded type of the edge between two addresses
(`graph.get_edge_data(...)["type"]`, defaulting to transition). -/
def edgeTypeOf (g : CFG) (s d : Nat) : EdgeType :=
  ((g.edges.find? (fun e => e.src == s && e.dst == d)).map (·.etype)).getD .transition

/-- The mutable state of one `ConditionProcessor` instance: the
condition mapping (symbol name → AIL expression), the exception-edge
counter `EXC_COUNTER`, and the three result tables. -/
structure CPState where
  conditionMapping : List (SymName × AilExpr) := []
  excCounter : Nat := 1000
  jumpTableConds : List (Nat × CTerm) := []
  reachingConditions : List (Nat × CTerm) := []
  guardingConditions : List (Nat × CTerm) := []
deriving DecidableEq

/-- A freshly constructed `ConditionProcessor` (empty tables; the class
attribute `EXC_COUNTER` starts at 1000). -/
def initState : CPState := {}

/-- `ConditionProcessor.clear`: resets the condition mapping, the
jump-table condition sets and the result tables.  The exception counter
`EXC_COUNTER` is *not* reset (it is not touched by `clear`). -/
def CPState.clear (st : CPState) : CPState :=
  { conditionMapping := []
    jumpTableConds := []
    reachingConditions := []
    guardingConditions := []
    excCounter := st.excCounter }

/-- Record `condition_mapping[var_name] = condition`. -/
def CPState.addMapping (st : CPState) (n : SymName) (e : AilExpr) : CPState :=
  { st with conditionMapping := (n, e) :: st.conditionMapping }

/-- `ConditionProcessor.claripy_ast_from_ail_condition`, on the modelled
AIL fragment.  Mirrors the source branch by branch: register leaves (with
no associated variable) and constants return early; binary operations go
through the translation table (`cmpEQ` → claripy `==` over operands
converted with `nobool=True`; unmapped operators → `_dummy_bvs`),
followed by the `nobool` bool-to-1-bit-BV coercion and the `must_bool`
1-bit-BV-to-bool coercion.  (The `_ast2annotations` update is not
modelled; the `NotImplemented` fallback cannot trigger for the modelled
operators.) -/
def claripyAstFromAilCondition (st : CPState) (condition : AilExpr)
    (nobool : Bool) (mustBool : Bool) (insAddr : Nat) : CPState × CTerm :=
  match condition with
  | .register idx ro bits =>
      let e := AilExpr.register idx ro bits
      let name := SymName.ailexprReg e idx insAddr
      (st.addMapping name e, .bvs name bits)
  | .const value bits =>
      let var := cBVV value bits
      if bits == 1 then (st, if value % 2 == 1 then cTrue else cFalse) else (st, var)
  | .binop op left right bits =>
      let e := AilExpr.binop op left right bits
      let step1 : CPState × CTerm :=
        match op with
        | .cmpEQ =>
            let c1 := claripyAstFromAilCondition st left true false insAddr
            let c2 := claripyAstFromAilCondition c1.1 right true false insAddr
            (c2.1, CTerm.eq c1.2 c2.2)
        | .other _ =>
            let name := SymName.ailexprE e
            (st.addMapping name e, .bvs name bits)
      let step2 : CPState × CTerm :=
        if step1.2.isBoolSort && nobool then
          let name := SymName.fromBoolE e
          (step1.1.addMapping name e, .bvs name 1)
        else step1
      if !step2.2.isBoolSort && step2.2.bitsOf == 1 && mustBool then
        match step2.2 with
        | .bvv v _ => (step2.1, if v == 0 then cFalse else cTrue)
        | .bvs n _ =>
            let name := SymName.boolFromBv1 n
            (step2.1.addMapping name e, .boolS name)
        | _ => step2
      else step2

/-- `ConditionProcessor.get_last_statement` on an `ailment.Block`:
the last statement, or `none` for the `EmptyBlockNotice` raised on a
statement-less block.  (The structured-node cases of the source method
are outside the modelled node kinds.) -/
def getLastStatement (b : Node) : Option AilStmt := b.stmts.getLast?

/-- Modelled from the spec: `is_head_controlled_loop_block`
(`angr.utils.ail`, not under src/) — per §4.2, a block "whose real branch
instruction is not the textually last statement (a head-controlled loop
shape, where the test precedes the body in program order)": a
conditional jump occurs before the last statement. -/
def isHeadControlledLoopBlock (b : Node) : Bool :=
  b.stmts.dropLast.any AilStmt.isCondJump

/-- `ConditionProcessor._extract_predicate` on block nodes.  The result
is `none` for the `EmptyBlockNotice` escape; the `assert` in the
head-controlled-loop branch cannot fail under the modelled
`isHeadControlledLoopBlock` (a conditional jump before the last
statement is guaranteed), and the `ConditionalBreakNode`/`GraphRegion`
branches are outside the modelled node kinds. -/
def extractPredicate (st : CPState) (srcBlock : Node) (dstAddr : Nat)
    (edgeType : EdgeType) : CPState × Option CTerm :=
  match edgeType with
  | .exception =>
      let ctr := st.excCounter + 1
      let st1 := { st with excCounter := ctr }
      let e := AilExpr.binop .cmpEQ (.register (0x400000 + ctr) ctr 64) (.const ctr 64) 1
      let c := claripyAstFromAilCondition st1 e false false dstAddr
      (c.1, some c.2)
  | .transition =>
      let lastStmt? :=
        if !srcBlock.stmts.isEmpty && isHeadControlledLoopBlock srcBlock then
          srcBlock.stmts.dropLast.find? AilStmt.isCondJump
        else getLastStatement srcBlock
      match lastStmt? with
      | none => (st, none)
      | some stmt =>
        match stmt with
        | .jump target insAddr =>
            match target with
            | .const _ _ => (st, some cTrue)
            | _ =>
                let c := claripyAstFromAilCondition st target false false insAddr
                (c.1, some (.eq c.2 (cBVV dstAddr c.2.bitsOf)))
        | .condJump condition trueTarget _ insAddr =>
            let c := claripyAstFromAilCondition st condition false true insAddr
            match trueTarget with
            | .const v _ =>
                if v == dstAddr then (c.1, some c.2) else (c.1, some (cNot c.2))
            | _ => (c.1, some (cNot c.2))
        | .assign _ => (st, some cTrue)

/-- `ConditionProcessor.recover_edge_condition`: look up the edge type,
extract the predicate, and substitute the trivially-true predicate for
the `EmptyBlockNotice` escape. -/
def recoverEdgeCondition (g : CFG) (st : CPState) (srcBlock : Node) (dstAddr : Nat) :
    CPState × CTerm :=
  let etype := edgeTypeOf g srcBlock.addr dstAddr
  let r := extractPredicate st srcBlock dstAddr etype
  (r.1, r.2.getD cTrue)

/-- `ConditionProcessor.recover_edge_conditions`: one predicate per edge,
visiting sources in node-list order and targets in successor order. -/
def recoverEdgeConditions (st : CPState) (g : CFG) :
    CPState × List ((Nat × Nat) × CTerm) :=
  g.nodes.foldl
    (fun acc src =>
      (successorAddrs g src.addr).foldl
        (fun acc2 dstAddr =>
          let r := recoverEdgeCondition g acc2.1 src dstAddr
          (r.1, acc2.2 ++ [((src.addr, dstAddr), r.2)]))
        acc)
    (st, [])

/-- Fueled reachability: is there a path (possibly empty) from `a` to
`b`?  Models `networkx.has_path` / `dfs_tree` reachability; fuel
`g.nodes.length` suffices on the acyclic graphs this module receives. -/
def reachB (g : CFG) : Nat → Nat → Nat → Bool
  | 0, a, b => a == b
  | fuel + 1, a, b =>
      a == b || (successorAddrs g a).any (fun s => reachB g fuel s b)

/-- Is there a path from `a` to some sink of the graph that avoids the
node `avoid`?  (Helper for the spec-modelled post-dominance check.) -/
def reachSinkAvoiding (g : CFG) (avoid : Nat) : Nat → Nat → Bool
  | 0, _ => false
  | fuel + 1, a =>
      if a == avoid then false
      else
        let succs := successorAddrs g a
        if succs.isEmpty then true else succs.any (reachSinkAvoiding g avoid fuel)

/-- Modelled from the spec: the dominance utility
(`inverted_idoms` + `dominates`, `angr.utils.graph`, not under src/),
specialised to the one query the solver makes — does `a` strictly
post-dominate the region head?  Per the spec glossary, "X post-dominates
Y if every path from Y to function exit passes through X": every path
from the head to a sink of the (acyclic) region graph passes through
`a`, and `a` is not the head itself. -/
def specStrictlyPostdominatesHead (g : CFG) (headAddr : Nat) (a : Nat) : Bool :=
  a != headAddr && !reachSinkAvoiding g a (g.nodes.length + 1) headAddr

/-- Fueled worker for the spec-modelled topological sort: repeatedly
emit the first remaining node with no incoming edge from another
remaining node (falling back to the first remaining node, which cannot
happen on acyclic inputs). -/
def specTopoSortAux (g : CFG) : Nat → List Node → List Node
  | 0, _ => []
  | _ + 1, [] => []
  | fuel + 1, h :: t =>
      let rem := h :: t
      let pick :=
        (rem.find? (fun n =>
          !(rem.any (fun m => m.addr != n.addr && hasEdge g m.addr n.addr)))).getD h
      pick :: specTopoSortAux g fuel (rem.filter (fun n => n.addr != pick.addr))

/-- Modelled from the spec: the topological-order utility
(`GraphUtils.quasi_topological_sort_nodes`, external per §6), for the
acyclic graphs this solver receives. -/
def specTopoSort (g : CFG) : List Node := specTopoSortAux g g.nodes.length g.nodes

/-- One BFS (inner `while queue:` loop) of
`ConditionProcessor._remove_crossing_edges_between_cases`, fueled.
`traversed` and `toRemove` model the python sets as
insertion-ordered duplicate-free lists; as in the source, the inner
successor loop re-adds `src` (not `succ`) to the traversed set. -/
def removeCrossingLoop (g : CFG) (startingAddrs : List Nat) :
    Nat → List Nat → List Nat → List (Nat × Nat) → List Nat × List (Nat × Nat)
  | 0, _, traversed, toRemove => (traversed, toRemove)
  | _ + 1, [], traversed, toRemove => (traversed, toRemove)
  | fuel + 1, src :: queue, traversed, toRemove =>
      let traversed := if traversed.contains src then traversed else traversed ++ [src]
      let step :=
        (successorAddrs g src).foldl
          (fun (acc : List Nat × List Nat × List (Nat × Nat)) succ =>
            let (q, trav, rem) := acc
            if trav.contains succ then
              if (successorAddrs g succ).length > 0 && !rem.contains (src, succ) then
                (q, trav, rem ++ [(src, succ)])
              else (q, trav, rem)
            else if startingAddrs.contains succ then
              if rem.contains (src, succ) then (q, trav, rem)
              else (q, trav, rem ++ [(src, succ)])
            else
              let trav := if trav.contains src then trav else trav ++ [src]
              (q ++ [succ], trav, rem))
          (queue, traversed, toRemove)
      removeCrossingLoop g startingAddrs fuel step.1 step.2.1 step.2.2

/-- `ConditionProcessor._remove_crossing_edges_between_cases`: BFS from
every jump-table entry node, collecting re-traversal and
entry-to-entry edges, then (only if any were found) a copy of the graph
without them. -/
def removeCrossingEdgesBetweenCases (g : CFG) (caseEntryToSwitchHead : List (Nat × Nat)) :
    CFG :=
  let startingAddrs :=
    (g.nodes.filter (fun n => (caseEntryToSwitchHead.lookup n.addr).isSome)).map (·.addr)
  if startingAddrs.isEmpty then g
  else
    let fuel := (g.nodes.length + 1) * (g.edges.length + 1) + 1
    let final :=
      startingAddrs.foldl
        (fun (acc : List Nat × List (Nat × Nat)) sn =>
          removeCrossingLoop g startingAddrs fuel [sn] acc.1 acc.2)
        ([], [])
    let toRemove := final.2
    if toRemove.isEmpty then g
    else { g with edges := g.edges.filter (fun e => !toRemove.contains (e.src, e.dst)) }

/-- Sympy boolean expressions, as far as
`claripy_ast_to_sympy_expr`/`sympy_expr_to_claripy_ast` build and
consume them.  A `symbol` carries the claripy atom it stands for: the
source names the sympy symbol by the atom's (interning) hash and keeps a
symbol → atom memo for the way back, so the symbol is determined by, and
recovers, its atom. -/
inductive SymExpr where
  | symbol (atom : CTerm)
  | strue
  | sfalse
  | snot (a : SymExpr)
  | sand (args : List SymExpr)
  | sor (args : List SymExpr)

mutual

/-- `ConditionProcessor.claripy_ast_to_sympy_expr`: structural on
and/or/not, a (hash-named, memoised) symbol on everything else.  (The
`_UNIFIABLE_COMPARISONS` rewrite concerns operators outside the
modelled constructors.) -/
def claripyAstToSympyExpr : CTerm → SymExpr
  | .and l => .sand (claripyListToSympy l)
  | .or l => .sor (claripyListToSympy l)
  | .not a => .snot (claripyAstToSympyExpr a)
  | c => .symbol c

/-- Argument-list worker for `claripyAstToSympyExpr`. -/
def claripyListToSympy : List CTerm → List SymExpr
  | [] => []
  | x :: xs => claripyAstToSympyExpr x :: claripyListToSympy xs

end

mutual

/-- `ConditionProcessor.sympy_expr_to_claripy_ast`: symbols resolve
through the memo (modelled by the symbol carrying its atom), the
boolean constants map to `claripy.true()`/`claripy.false()`, and
and/or/not replay the claripy constructors. -/
def sympyExprToClaripyAst : SymExpr → CTerm
  | .symbol a => a
  | .strue => cTrue
  | .sfalse => cFalse
  | .snot a => cNot (sympyExprToClaripyAst a)
  | .sand l => .and (sympyListToClaripy l)
  | .sor l => .or (sympyListToClaripy l)

/-- Argument-list worker for `sympyExprToClaripyAst`. -/
def sympyListToClaripy : List SymExpr → List CTerm
  | [] => []
  | x :: xs => sympyExprToClaripyAst x :: sympyListToClaripy xs

end

/-- `ConditionProcessor.simplify_condition`.  The boolean-minimization
oracle (`sympy.simplify_logic`, external per §6) is an explicit
parameter; size-gating is as in the source, with the source's default
limits. -/
def simplifyCondition (oracle : SymExpr → SymExpr) (cond : CTerm)
    (depthLimit : Nat := 8) (variablesLimit : Nat := 8) : CTerm :=
  if cond.depth > depthLimit || cond.varCount > variablesLimit then cond
  else sympyExprToClaripyAst (oracle (claripyAstToSympyExpr cond))

/-- `ConditionProcessor.create_jump_target_var`: the per-table dispatch
variable, an `arch.bits`-wide symbol named by the jump-table head
address. -/
def createJumpTargetVar (archBits : Nat) (jumptableHeadAddr : Nat) : CTerm :=
  .bvs (.jumpTable jumptableHeadAddr) archBits

/-- Parameters threaded through the reaching-condition main loop: the
(possibly trimmed) graph, the region head address, the case-entry map,
the architecture word size, the simplify flag, the minimization oracle
and the precomputed edge conditions. -/
structure RecParams where
  g : CFG
  headAddr : Nat
  caseMap : List (Nat × Nat)
  archBits : Nat
  simplifyConditions : Bool
  oracle : SymExpr → SymExpr
  edgeConds : List ((Nat × Nat) × CTerm)

/-- The two tables the main loop fills: the reaching conditions (keyed
by block address; prepending models dict assignment) and the
jump-table condition log (`jump_table_conds[...].add(cond)`, in add
order). -/
structure RLState where
  rcs : List (Nat × CTerm)
  jtc : List (Nat × CTerm)
deriving DecidableEq

/-- The `for pred in preds:` accumulation of the source: the first
predecessor contributes `And(pred_cond, edge_cond)`, each further one
wraps `Or(And(pred_cond, edge_cond), acc)`.  Missing table entries
default to the trivially-true condition, as with `.get`. -/
def buildReachingCondition (rcs : List (Nat × CTerm)) (edgeConds : List ((Nat × Nat) × CTerm))
    (nodeAddr : Nat) : List Nat → Option CTerm → Option CTerm
  | [], acc => acc
  | p :: ps, acc =>
      let predCondition := (rcs.lookup p).getD cTrue
      let edgeCondition := (edgeConds.lookup (p, nodeAddr)).getD cTrue
      let conj := CTerm.and [predCondition, edgeCondition]
      buildReachingCondition rcs edgeConds nodeAddr ps
        (match acc with
         | none => some conj
         | some rc => some (.or [conj, rc]))

/-- One iteration of the main loop of `recover_reaching_conditions`: the
jump-table-entry branch, the head branch, the strict-post-domination
branch, and the OR-over-predecessors fold (stored simplified when
`simplify_conditions` is set; nodes whose accumulation stays `None`
store nothing).  The source also collects `terminating_nodes`, which
nothing ever reads; that dead computation is not modelled. -/
def stepNode (P : RecParams) (st : RLState) (n : Node) : RLState :=
  if !P.caseMap.isEmpty && (P.caseMap.lookup n.addr).isSome then
    match P.caseMap.lookup n.addr with
    | some switchHead =>
        let jumpTargetVar := createJumpTargetVar P.archBits switchHead
        let cond := CTerm.eq jumpTargetVar (cBVV n.addr P.archBits)
        { rcs := (n.addr, cond) :: st.rcs, jtc := st.jtc ++ [(switchHead, cond)] }
    | none => st
  else
    let preds := predecessorAddrs P.g n.addr
    if n.addr == P.headAddr then
      let rc := cTrue
      { st with rcs :=
          (n.addr, if P.simplifyConditions then simplifyCondition P.oracle rc else rc) :: st.rcs }
    else if specStrictlyPostdominatesHead P.g P.headAddr n.addr then
      { st with rcs := (n.addr, cTrue) :: st.rcs }
    else
      match buildReachingCondition st.rcs P.edgeConds n.addr preds none with
      | none => st
      | some rc =>
          { st with rcs :=
              (n.addr, if P.simplifyConditions then simplifyCondition P.oracle rc else rc) :: st.rcs }

/-- The main loop over the quasi-topologically sorted nodes. -/
def goNodes (P : RecParams) (st : RLState) (order : List Node) : RLState :=
  order.foldl (stepNode P) st

/-- The guarding condition for one node (`None` unless it has exactly
two predecessors and at least one diverging edge): slice the nodes that
can reach it, collect successors of slice nodes that cannot reach it,
take each edge into that set from outside it, and OR the negations of
those edge conditions. -/
def guardingForNode (g : CFG) (edgeConds : List ((Nat × Nat) × CTerm)) (theAddr : Nat) :
    Option CTerm :=
  let preds := predecessorAddrs g theAddr
  if preds.length != 2 then none
  else
    let fuel := g.nodes.length
    let sliceAddrs := ((g.nodes.filter (fun x => reachB g fuel x.addr theAddr)).map (·.addr))
    let notReach :=
      sliceAddrs.foldl
        (fun acc a =>
          if a == theAddr then acc
          else
            (successorAddrs g a).foldl
              (fun acc2 succ =>
                if reachB g fuel succ theAddr then acc2
                else if acc2.contains succ then acc2
                else acc2 ++ [succ])
              acc)
        []
    let diverging :=
      notReach.foldl
        (fun acc a =>
          (predecessorAddrs g a).foldl
            (fun acc2 p =>
              if notReach.contains p then acc2
              else
                match edgeConds.lookup (p, a) with
                | some ec => acc2 ++ [ec]
                | none => acc2)
            acc)
        []
    if diverging.isEmpty then none
    else some (.or (diverging.map cNot))

/-- `ConditionProcessor.recover_reaching_conditions` (the `graph=None`,
`with_successors=False` path): recover all edge conditions on the region
graph, trim crossing edges between switch cases if a case-entry map is
given, and fill the reaching-, guarding- and jump-table-condition
tables, visiting nodes in the (spec-modelled) quasi-topological order
and using the (spec-modelled) strict-post-dominance check. -/
def recoverReachingConditions (archBits : Nat) (oracle : SymExpr → SymExpr)
    (st : CPState) (region : CFG) (headAddr : Nat)
    (caseEntryToSwitchHead : List (Nat × Nat)) (simplifyConditions : Bool) : CPState :=
  let ec := recoverEdgeConditions st region
  let st := ec.1
  let edgeConds := ec.2
  let g :=
    if !caseEntryToSwitchHead.isEmpty then
      removeCrossingEdgesBetweenCases region caseEntryToSwitchHead
    else region
  let order := specTopoSort g
  let P : RecParams :=
    { g := g, headAddr := headAddr, caseMap := caseEntryToSwitchHead,
      archBits := archBits, simplifyConditions := simplifyConditions,
      oracle := oracle, edgeConds := edgeConds }
  let rl := goNodes P { rcs := [], jtc := st.jumpTableConds } order
  let guards :=
    order.foldl
      (fun acc n =>
        match guardingForNode g edgeConds n.addr with
        | some c => acc ++ [(n.addr, c)]
        | none => acc)
      []
  { st with
      reachingConditions := rl.rcs
      guardingConditions := guards
      jumpTableConds := rl.jtc }

/-- `ConditionProcessor._revert_short_circuit_conditions`
(`!A||(A&&!B) ==> !(A&&B)`).  The SMT oracle (`SolverCacheless`,
external per §6) is an explicit parameter answering "is this one
constraint satisfiable?".  As in the source: only the first two OR arms
are examined (one of them must be an `And`), the candidate conjunct must
have the *same variable set* as the other arm before the solver is
consulted, and any further OR arms are reattached unchanged. -/
def revertShortCircuitConditions (sat : CTerm → Bool) (cond : CTerm) : CTerm :=
  match cond with
  | .or [x] => x
  | .or (a0 :: a1 :: rest) =>
      let pick? : Option (CTerm × List CTerm) :=
        match a1 with
        | .and l => some (a0, l)
        | _ =>
          match a0 with
          | .and l => some (a1, l)
          | _ => none
      match pick? with
      | none => cond
      | some (notA, andArgs) =>
        match andArgs with
        | x :: y :: _ =>
            let chosen? : Option (CTerm × CTerm) :=
              if varSetEq notA x then some (x, y)
              else if varSetEq notA y then some (y, x)
              else none
            match chosen? with
            | none => cond
            | some (constrained, notB) =>
                if sat (.eq notA constrained) then cond
                else
                  let b := cNot notB
                  let a := cNot notA
                  if rest.isEmpty then cNot (.and [a, b])
                  else .or (cNot (.and [a, b]) :: rest)
        | _ => cond
  | _ => cond

/-- `ConditionProcessor._fold_double_negations`.  Mirrors the source
branch by branch; in particular, the first branch returns
`cond.args[0]` verbatim, exactly as the source does.  The internal
`simplify_condition` calls take the minimization oracle as a
parameter. -/
def foldDoubleNegations (oracle : SymExpr → SymExpr) (cond : CTerm) : Option CTerm :=
  match cond with
  | .not inner =>
      match inner with
      | .not _ => some inner
      | .and [a0, a1] =>
          match a0, a1 with
          | .not x, .not y => some (.or [x, y])
          | .not x, y => some (.or [x, simplifyCondition oracle (cNot y)])
          | _, _ => none
      | .or [o0, o1] =>
          some (.and [simplifyCondition oracle (cNot o0), simplifyCondition oracle (cNot o1)])
      | _ => none
  | _ => none

mutual

/-- `ConditionProcessor._extract_terms`: the atomic terms of a
condition, stripping `And`/`Or`/`Not` structure. -/
def extractTerms : CTerm → List CTerm
  | .and l => extractTermsList l
  | .or l => extractTermsList l
  | .not a => extractTerms a
  | t => [t]

/-- Concatenated atomic terms of a list of conditions. -/
def extractTermsList : List CTerm → List CTerm
  | [] => []
  | x :: xs => extractTerms x ++ extractTermsList xs

end

mutual

/-- `ConditionProcessor._replace_term_in_ast`: rebuild through
And/Or/Not, replacing the (interned, hence structurally compared)
occurrences of `r0` by `r0With` and of `r1` (optional, the python call
sites pass `None` when no negation is tracked) by `r1With`. -/
def replaceTermInAst (ast r0 r0With : CTerm) (r1 : Option CTerm) (r1With : CTerm) : CTerm :=
  match ast with
  | .and l => .and (replaceTermInList l r0 r0With r1 r1With)
  | .or l => .or (replaceTermInList l r0 r0With r1 r1With)
  | .not a => cNot (replaceTermInAst a r0 r0With r1 r1With)
  | t => if t = r0 then r0With else if some t = r1 then r1With else t

/-- Argument-list worker for `replaceTermInAst`. -/
def replaceTermInList (l : List CTerm) (r0 r0With : CTerm) (r1 : Option CTerm)
    (r1With : CTerm) : List CTerm :=
  match l with
  | [] => []
  | x :: xs => replaceTermInAst x r0 r0With r1 r1With :: replaceTermInList xs r0 r0With r1 r1With

end

/-- `ConditionProcessor._remove_redundant_terms`.  The SMT oracle
(`solver.satisfiable(extra_constraints=...)`) is a parameter taking the
extra-constraint list.  The python sets are modelled as
insertion-ordered duplicate-free lists.  The first component of the
result is the list of terms the pass *reports* as redundant (the
source's `print(term, "is redundant")`); the second component is the
function's return value, which — as in the source, whose implementation
stops at the report (`# TODO: Finish the implementation`) — is always
`None`: no rewritten condition is ever produced. -/
def removeRedundantTerms (sat : List CTerm → Bool) (cond : CTerm) :
    List CTerm × Option CTerm :=
  let allTerms :=
    (extractTerms cond).foldl (fun acc t => if acc.contains t then acc else acc ++ [t]) []
  let sets :=
    allTerms.foldl
      (fun (acc : List (CTerm × CTerm) × List CTerm × List CTerm) term =>
        let (negs, toSkip, withoutNegs) := acc
        if toSkip.contains term then acc
        else
          let neg := cNot term
          if allTerms.contains neg then
            (negs ++ [(term, neg)], toSkip ++ [neg], withoutNegs ++ [term])
          else (negs, toSkip, withoutNegs ++ [term]))
      ([], [], [])
  let negations := sets.1
  let allTermsWithoutNegs := sets.2.2
  let reported :=
    allTermsWithoutNegs.foldl
      (fun acc term =>
        let neg := negations.lookup term
        let replacedWithTrue := replaceTermInAst cond term cTrue neg cFalse
        let sat0 := sat [cond, cNot replacedWithTrue]
        let sat1 := sat [cNot cond, replacedWithTrue]
        if sat0 || sat1 then acc
        else
          let replacedWithFalse := replaceTermInAst cond term cFalse neg cTrue
          let sat0b := sat [cond, cNot replacedWithFalse]
          let sat1b := sat [cNot cond, replacedWithFalse]
          if sat0b || sat1b then acc
          else acc ++ [term])
      []
  (reported, none)

/-!  Concrete objects used to instantiate the theorems below. -/

/-- A trivial minimization oracle (identity on sympy expressions). -/
def idOracle : SymExpr → SymExpr := fun s => s

/-- A satisfiability oracle that reports every query unsatisfiable
(the correct verdict on the queries it is used with below). -/
def unsatOracle : CTerm → Bool := fun _ => false

/-- A boolean atom (a `BoolS` leaf with a `_dummy_bools`-style name). -/
def atomA : CTerm := .boolS (.ailexprE (.const 1 1))

/-- A second boolean atom. -/
def atomB : CTerm := .boolS (.ailexprE (.const 2 1))

/-- A third boolean atom. -/
def atomQ : CTerm := .boolS (.ailexprE (.const 3 1))

/-- An assignment making every boolean symbol true. -/
def allTrueAsgn : Assignment := ⟨fun _ => true, fun _ => 0⟩

/-- Semantic (satisfiability) equivalence of two boolean-sorted terms:
they agree under every assignment. -/
def SemEquiv (c1 c2 : CTerm) : Prop := ∀ σ : Assignment, evalB σ c1 = evalB σ c2

/-- A region whose head `1` has an exception edge to `2` and an ordinary
transition to `3` (block `2` does not post-dominate the head). -/
def gExc : CFG :=
  { nodes := [⟨1, []⟩, ⟨2, []⟩, ⟨3, []⟩],
    edges := [⟨1, 2, .exception⟩, ⟨1, 3, .transition⟩] }

/-- First recovery run on `gExc`, from a fresh processor. -/
def runExc1 : CPState := recoverReachingConditions 64 idOracle initState gExc 1 [] false

/-- Second recovery run on `gExc`, on the same processor after
`clear()` (so with a fresh, empty condition mapping). -/
def runExc2 : CPState := recoverReachingConditions 64 idOracle runExc1.clear gExc 1 [] false

/-- A diamond region over an arbitrary branch condition: head `1`
branches on `c` to `2` or `3`, both converge to `4`. -/
def diamondCFG (c : AilExpr) : CFG :=
  { nodes := [⟨1, [.condJump c (.const 2 64) (.const 3 64) 100]⟩,
              ⟨2, [.jump (.const 4 64) 200]⟩,
              ⟨3, [.jump (.const 4 64) 300]⟩,
              ⟨4, []⟩],
    edges := [⟨1, 2, .transition⟩, ⟨1, 3, .transition⟩, ⟨2, 4, .transition⟩, ⟨3, 4, .transition⟩] }

/-- A sample two-operand comparison used as a concrete branch condition. -/
def sampleCond : AilExpr := .binop .cmpEQ (.register 7 16 64) (.const 5 64) 1

/-- A two-block region whose second block is a jump-table entry
(case-entry map `{2 ↦ 9}`) and strictly post-dominates the head. -/
def gJT : CFG :=
  { nodes := [⟨1, [.jump (.const 2 64) 100]⟩, ⟨2, []⟩],
    edges := [⟨1, 2, .transition⟩] }

/-- Recovery on `gJT` with the case-entry map `{2 ↦ 9}`. -/
def runJT : CPState := recoverReachingConditions 64 idOracle initState gJT 1 [(2, 9)] true

/-- A three-entry jump-table region: head `1` with an indirect jump to
entries `2`, `3`, `4` of the table at `9`. -/
def gJT3 : CFG :=
  { nodes := [⟨1, [.jump (.register 3 8 64) 100]⟩, ⟨2, []⟩, ⟨3, []⟩, ⟨4, []⟩],
    edges := [⟨1, 2, .transition⟩, ⟨1, 3, .transition⟩, ⟨1, 4, .transition⟩] }

/-- The case-entry map of `gJT3`. -/
def mapJT3 : List (Nat × Nat) := [(2, 9), (3, 9), (4, 9)]

/-- Recovery on `gJT3`. -/
def runJT3 : CPState := recoverReachingConditions 64 idOracle initState gJT3 1 mapJT3 false

/-- A region with an ordinary interior join: `1 → {2, 3, 5}`,
`2 → 4`, `3 → 4`; node `4` does not post-dominate the head (node `5`
escapes it) and is not the head, so it takes the OR-over-predecessors
formula. -/
def gOrd : CFG :=
  { nodes := [⟨1, []⟩, ⟨2, []⟩, ⟨3, []⟩, ⟨4, []⟩, ⟨5, []⟩],
    edges := [⟨1, 2, .transition⟩, ⟨1, 3, .transition⟩, ⟨1, 5, .transition⟩,
              ⟨2, 4, .transition⟩, ⟨3, 4, .transition⟩] }

/-- Recovery on `gOrd` (no simplification, so raw formulas are stored). -/
def runOrd : CPState := recoverReachingConditions 64 idOracle initState gOrd 1 [] false

/-- A term equivalent to `atomA` but with a different variable set
(`A ∧ (Q ∨ ¬Q)`). -/
def aPrime : CTerm := .and [atomA, .or [atomQ, .not atomQ]]

/-- The disjunction `¬A ∨ (A′ ∧ ¬B)` with `A′` satisfiability-equivalent
(but not variable-set-equal) to `A`. -/
def scInputPrime : CTerm := .or [.not atomA, .and [aPrime, .not atomB]]

/-- A term of depth 10 (nine nested conjunctions around an atom). -/
def deepTerm : CTerm :=
  .and [.and [.and [.and [.and [.and [.and [.and [.and [atomA]]]]]]]]]

/-!  Theorems. -/

theorem evalB_cNot (σ : Assignment) (c : CTerm) : evalB σ (cNot c) = !evalB σ c := by
  cases c <;> simp [cNot, evalB]

/-- C5: the size gate of `simplify_condition` with the default limits:
oversized terms pass through unchanged (for every oracle), and only
terms within both limits are handed to the minimization oracle
(via the sympy round-trip). -/
theorem simplify_condition_size_gate (oracle : SymExpr → SymExpr) (cond : CTerm) :
    (cond.depth > 8 ∨ cond.varCount > 8 → simplifyCondition oracle cond = cond) ∧
    (cond.depth ≤ 8 → cond.varCount ≤ 8 →
      simplifyCondition oracle cond =
        sympyExprToClaripyAst (oracle (claripyAstToSympyExpr cond))) := by
  constructor
  · intro h
    unfold simplifyCondition
    have hc : (decide (cond.depth > 8) || decide (cond.varCount > 8)) = true := by
      rcases h with h | h <;> simp [h]
    simp [hc]
  · intro h1 h2
    unfold simplifyCondition
    have hc : (decide (cond.depth > 8) || decide (cond.varCount > 8)) = false := by
      simp [Nat.not_lt.mpr h1, Nat.not_lt.mpr h2]
    simp [hc]

theorem simplify_condition_size_gate_witness :
    simplifyCondition idOracle deepTerm = deepTerm ∧
    simplifyCondition idOracle (.and [atomA]) =
      sympyExprToClaripyAst (idOracle (claripyAstToSympyExpr (.and [atomA]))) :=
  ⟨(simplify_condition_size_gate idOracle deepTerm).1 (Or.inl (by decide)),
   (simplify_condition_size_gate idOracle (.and [atomA])).2 (by decide) (by decide)⟩

/-- C7: `_fold_double_negations` applied to the double negation
`¬(¬A)` returns `¬A` (the branch returns `cond.args[0]` rather than its
argument), contradicting both the pass's own comment (`!(!A) ==> A`) and
truth-table preservation: the result differs from the input under the
all-true assignment. -/
theorem fold_double_negations_on_double_negation :
    foldDoubleNegations idOracle (.not (.not atomA)) = some (.not atomA) ∧
    CTerm.not atomA ≠ atomA ∧
    evalB allTrueAsgn (.not (.not atomA)) ≠ evalB allTrueAsgn (.not atomA) :=
  ⟨rfl, by decide, by decide⟩

/-- C9: `_remove_redundant_terms` never commits a rewrite: for every
oracle and input its returned condition is `None`; it only reports
candidates (the second conjunct shows a run that reports two terms while
still returning `None`). -/
theorem remove_redundant_terms_reports_only :
    (∀ (sat : List CTerm → Bool) (cond : CTerm), (removeRedundantTerms sat cond).2 = none) ∧
    (removeRedundantTerms (fun _ => false) (.and [atomA, atomB])).1 = [atomA, atomB] :=
  ⟨fun _ _ => rfl, by decide⟩

/-- C8: an AIL binary operation whose operator has no entry in the
translation table converts to a fresh opaque symbol named from the
expression, recorded in the condition mapping; the result does not
depend on the incoming mapping state (structurally identical expressions
give the structurally same symbol), and structurally distinct unmapped
expressions give distinct symbols. -/
theorem unmapped_operator_fallback (st st2 : CPState) (t t2 : Nat)
    (l r l2 r2 : AilExpr) (bits bits2 ia ia2 : Nat)
    (hne : AilExpr.binop (.other t) l r bits ≠ .binop (.other t2) l2 r2 bits2) :
    (claripyAstFromAilCondition st (.binop (.other t) l r bits) false false ia).2
        = .bvs (.ailexprE (.binop (.other t) l r bits)) bits ∧
    ((claripyAstFromAilCondition st (.binop (.other t) l r bits) false false ia).1.conditionMapping.lookup
        (.ailexprE (.binop (.other t) l r bits)) = some (.binop (.other t) l r bits)) ∧
    (claripyAstFromAilCondition st (.binop (.other t) l r bits) false false ia).2
        ≠ (claripyAstFromAilCondition st2 (.binop (.other t2) l2 r2 bits2) false false ia2).2 := by
  have hval : ∀ (s : CPState) (u : Nat) (x y : AilExpr) (b i : Nat),
      (claripyAstFromAilCondition s (.binop (.other u) x y b) false false i).2
        = .bvs (.ailexprE (.binop (.other u) x y b)) b := by
    intro s u x y b i
    simp [claripyAstFromAilCondition, CTerm.isBoolSort, Bool.and_false]
  refine ⟨hval st t l r bits ia, ?_, ?_⟩
  · simp [claripyAstFromAilCondition, CTerm.isBoolSort, Bool.and_false, CPState.addMapping,
      List.lookup]
  · rw [hval, hval]
    intro h
    rw [CTerm.bvs.injEq, SymName.ailexprE.injEq] at h
    exact hne h.1

theorem unmapped_operator_fallback_witness :
    (claripyAstFromAilCondition initState (.binop (.other 1) (.const 0 8) (.const 1 8) 8)
        false false 0).2
      ≠ (claripyAstFromAilCondition initState (.binop (.other 2) (.const 0 8) (.const 1 8) 8)
        false false 0).2 :=
  (unmapped_operator_fallback initState initState 1 2 (.const 0 8) (.const 1 8)
      (.const 0 8) (.const 1 8) 8 8 0 0 (by decide)).2.2

/-- C6 (amended): `_revert_short_circuit_conditions` rewrites
`¬A ∨ (A′ ∧ ¬B) ∨ rest` to `¬(A ∧ B)` (with any further OR arms
reattached unchanged, not recursed into) when `A′` has the *same
variable set* as `¬A` and the solver finds `¬A == A′` unsatisfiable; in
particular `¬A ∨ (A ∧ ¬B)` over atoms yields exactly `¬(A ∧ B)` (third
conjunct: the queried constraint is indeed unsatisfiable, so `false` is
the correct oracle verdict there). -/
theorem short_circuit_unreversion :
    (∀ (sat : CTerm → Bool) (na ap nb : CTerm) (rest : List CTerm),
        varSetEq na ap = true → sat (.eq na ap) = false →
        revertShortCircuitConditions sat (.or (na :: .and [ap, nb] :: rest)) =
          if rest.isEmpty then cNot (.and [cNot na, cNot nb])
          else .or (cNot (.and [cNot na, cNot nb]) :: rest)) ∧
    (∀ (a b : SymName) (sat : CTerm → Bool),
        sat (.eq (.not (.boolS a)) (.boolS a)) = false →
        revertShortCircuitConditions sat
            (.or [.not (.boolS a), .and [.boolS a, .not (.boolS b)]]) =
          .not (.and [.boolS a, .boolS b])) ∧
    (∀ (a : SymName) (σ : Assignment),
        evalB σ (.eq (.not (.boolS a)) (.boolS a)) = false) := by
  have p1 : ∀ (sat : CTerm → Bool) (na ap nb : CTerm) (rest : List CTerm),
      varSetEq na ap = true → sat (.eq na ap) = false →
      revertShortCircuitConditions sat (.or (na :: .and [ap, nb] :: rest)) =
        if rest.isEmpty then cNot (.and [cNot na, cNot nb])
        else .or (cNot (.and [cNot na, cNot nb]) :: rest) := by
    intro sat na ap nb rest hvars hsat
    simp [revertShortCircuitConditions, hvars, hsat]
  refine ⟨p1, ?_, ?_⟩
  · intro a b sat hsat
    have hv : varSetEq (.not (.boolS a)) (.boolS a) = true := by
      simp [varSetEq, CTerm.varsIn, List.contains]
    have := p1 sat (.not (.boolS a)) (.boolS a) (.not (.boolS b)) [] hv hsat
    simpa [cNot] using this
  · intro a σ
    simp [evalB, CTerm.isBoolSort]

theorem short_circuit_unreversion_witness :
    revertShortCircuitConditions unsatOracle (.or [.not atomA, .and [atomA, .not atomB]]) =
      .not (.and [atomA, atomB]) :=
  short_circuit_unreversion.2.1 (.ailexprE (.const 1 1)) (.ailexprE (.const 2 1))
    unsatOracle rfl

/-- C6 (counterexample to the claim as stated): with
`A′ = A ∧ (Q ∨ ¬Q)` — satisfiability-equivalent to `A` on every
assignment, but with a different variable set — the pass leaves
`¬A ∨ (A′ ∧ ¬B)` unchanged even under the correct (all-unsat) oracle
verdicts, instead of rewriting it to `¬(A ∧ B)`. -/
theorem short_circuit_unreversion_cx :
    SemEquiv aPrime atomA ∧
    revertShortCircuitConditions unsatOracle scInputPrime = scInputPrime ∧
    scInputPrime ≠ cNot (.and [atomA, atomB]) := by
  refine ⟨?_, by decide, by decide⟩
  intro σ
  cases h : σ.boolVal (.ailexprE (.const 3 1)) <;>
    simp [aPrime, atomA, atomQ, evalB, evalBAll, evalBAny, h]

theorem claripy_snd_state_free :
    ∀ (e : AilExpr) (st st2 : CPState) (nb mb : Bool) (ia : Nat),
      (claripyAstFromAilCondition st e nb mb ia).2 =
        (claripyAstFromAilCondition st2 e nb mb ia).2 := by
  intro e
  induction e with
  | const v b =>
    intro st st2 nb mb ia
    cases hb : (b == 1) <;> simp [claripyAstFromAilCondition, hb]
  | register i ro b => intro st st2 nb mb ia; rfl
  | binop op l r b ihl ihr =>
    intro st st2 nb mb ia
    cases op with
    | other t =>
      simp only [claripyAstFromAilCondition]
      cases mb <;> by_cases hb : b = 1 <;> simp [CTerm.isBoolSort, CTerm.bitsOf, hb]
    | cmpEQ =>
      have h1 := ihl st st2 true false ia
      have h2 := ihr (claripyAstFromAilCondition st l true false ia).1
        (claripyAstFromAilCondition st2 l true false ia).1 true false ia
      simp only [claripyAstFromAilCondition]
      cases nb <;> cases mb <;> simp [CTerm.isBoolSort, CTerm.bitsOf, h1, h2]

theorem extract_snd_state_free (b : Node) (d : Nat) (st st2 : CPState) :
    (extractPredicate st b d .transition).2 = (extractPredicate st2 b d .transition).2 := by
  unfold extractPredicate
  cases hls : (if !b.stmts.isEmpty && isHeadControlledLoopBlock b then
      b.stmts.dropLast.find? AilStmt.isCondJump else getLastStatement b) with
  | none => simp only [hls]
  | some stmt =>
    simp only [hls]
    cases stmt with
    | jump tgt ia =>
      cases tgt with
      | const v bb => rfl
      | register i ro bb =>
        simp [claripy_snd_state_free (AilExpr.register i ro bb) st st2 false false ia]
      | binop op x y bb =>
        simp [claripy_snd_state_free (AilExpr.binop op x y bb) st st2 false false ia]
    | condJump c tt ft ia =>
      have hb := claripy_snd_state_free c st st2 false true ia
      cases tt with
      | const v bb =>
        cases hvd : (v == d) <;> simp [hvd, hb]
      | register i ro bb => simp [hb]
      | binop op x y bb => simp [hb]
    | assign k => rfl

/-- C3: for a block ending in a two-way conditional jump, the predicate
extracted for the edge to the true arm is the algebra translation of the
branch condition and the predicate for the other edge is its negation —
regardless of processor state — and the two predicates are mutual
negations: their conjunction is unsatisfiable and their disjunction is
valid under every assignment. -/
theorem conditional_branch_edge_predicates (st st2 : CPState) (src : Node)
    (cond ft : AilExpr) (ia tAddr tb fAddr : Nat)
    (hlast : getLastStatement src = some (.condJump cond (.const tAddr tb) ft ia))
    (hhclb : isHeadControlledLoopBlock src = false)
    (hne : fAddr ≠ tAddr) :
    (extractPredicate st src tAddr .transition).2 =
        some (claripyAstFromAilCondition st cond false true ia).2 ∧
    (extractPredicate st2 src fAddr .transition).2 =
        some (cNot (claripyAstFromAilCondition st cond false true ia).2) ∧
    (∀ σ : Assignment,
      evalB σ (.and [(claripyAstFromAilCondition st cond false true ia).2,
        cNot (claripyAstFromAilCondition st cond false true ia).2]) = false) ∧
    (∀ σ : Assignment,
      evalB σ (.or [(claripyAstFromAilCondition st cond false true ia).2,
        cNot (claripyAstFromAilCondition st cond false true ia).2]) = true) := by
  have hb := claripy_snd_state_free cond st2 st false true ia
  refine ⟨?_, ?_, ?_, ?_⟩
  · unfold extractPredicate
    simp [hhclb, hlast]
  · unfold extractPredicate
    have hvd : (tAddr == fAddr) = false := by
      simp [Ne.symm hne]
    simp [hhclb, hlast, hvd, hb]
  · intro σ
    simp [evalB, evalBAll, evalB_cNot]
  · intro σ
    simp [evalB, evalBAny, evalB_cNot]

theorem conditional_branch_edge_predicates_witness :
    (extractPredicate initState ⟨1, [.condJump sampleCond (.const 2 64) (.const 3 64) 100]⟩
        2 .transition).2 =
      some (claripyAstFromAilCondition initState sampleCond false true 100).2 ∧
    (extractPredicate initState ⟨1, [.condJump sampleCond (.const 2 64) (.const 3 64) 100]⟩
        3 .transition).2 =
      some (cNot (claripyAstFromAilCondition initState sampleCond false true 100).2) :=
  ⟨(conditional_branch_edge_predicates initState initState
      ⟨1, [.condJump sampleCond (.const 2 64) (.const 3 64) 100]⟩
      sampleCond (.const 3 64) 100 2 64 3 (by decide) (by decide) (by decide)).1,
   (conditional_branch_edge_predicates initState initState
      ⟨1, [.condJump sampleCond (.const 2 64) (.const 3 64) 100]⟩
      sampleCond (.const 3 64) 100 2 64 3 (by decide) (by decide) (by decide)).2.1⟩

theorem edgeTypeOf_transition (g : CFG) (hexc : ∀ e ∈ g.edges, e.etype = .transition)
    (s d : Nat) : edgeTypeOf g s d = .transition := by
  unfold edgeTypeOf
  cases hf : g.edges.find? (fun e => e.src == s && e.dst == d) with
  | none => rfl
  | some e =>
    have hm : e ∈ g.edges := List.mem_of_find?_eq_some hf
    simp [hexc e hm]

theorem recoverEdgeCondition_snd_state_free (g : CFG)
    (hexc : ∀ e ∈ g.edges, e.etype = .transition)
    (st st2 : CPState) (src : Node) (d : Nat) :
    (recoverEdgeCondition g st src d).2 = (recoverEdgeCondition g st2 src d).2 := by
  simp only [recoverEdgeCondition]
  rw [edgeTypeOf_transition g hexc]
  rw [extract_snd_state_free src d st st2]

theorem recEC_inner_snd_congr (g : CFG) (hexc : ∀ e ∈ g.edges, e.etype = .transition)
    (src : Node) :
    ∀ (ds : List Nat) (p q : CPState × List ((Nat × Nat) × CTerm)), p.2 = q.2 →
      (ds.foldl (fun acc2 dstAddr =>
          let r := recoverEdgeCondition g acc2.1 src dstAddr
          (r.1, acc2.2 ++ [((src.addr, dstAddr), r.2)])) p).2 =
      (ds.foldl (fun acc2 dstAddr =>
          let r := recoverEdgeCondition g acc2.1 src dstAddr
          (r.1, acc2.2 ++ [((src.addr, dstAddr), r.2)])) q).2 := by
  intro ds
  induction ds with
  | nil => intro p q h; exact h
  | cons d ds ih =>
    intro p q h
    simp only [List.foldl_cons]
    apply ih
    simp only [h, recoverEdgeCondition_snd_state_free g hexc p.1 q.1 src d]

theorem recEC_snd_congr (g : CFG) (hexc : ∀ e ∈ g.edges, e.etype = .transition) :
    ∀ (ns : List Node) (p q : CPState × List ((Nat × Nat) × CTerm)), p.2 = q.2 →
      (ns.foldl (fun acc src =>
          (successorAddrs g src.addr).foldl (fun acc2 dstAddr =>
            let r := recoverEdgeCondition g acc2.1 src dstAddr
            (r.1, acc2.2 ++ [((src.addr, dstAddr), r.2)])) acc) p).2 =
      (ns.foldl (fun acc src =>
          (successorAddrs g src.addr).foldl (fun acc2 dstAddr =>
            let r := recoverEdgeCondition g acc2.1 src dstAddr
            (r.1, acc2.2 ++ [((src.addr, dstAddr), r.2)])) acc) q).2 := by
  intro ns
  induction ns with
  | nil => intro p q h; exact h
  | cons m ns ih =>
    intro p q h
    simp only [List.foldl_cons]
    apply ih
    exact recEC_inner_snd_congr g hexc m (successorAddrs g m.addr) p q h

theorem recoverEdgeConditions_snd_state_free (g : CFG)
    (hexc : ∀ e ∈ g.edges, e.etype = .transition) (st st2 : CPState) :
    (recoverEdgeConditions st g).2 = (recoverEdgeConditions st2 g).2 := by
  unfold recoverEdgeConditions
  exact recEC_snd_congr g hexc g.nodes (st, []) (st2, []) rfl

/-- The reaching-condition table produced by one `stepNode` visit, as a
case-normal form. -/
theorem stepNode_rcs_def (P : RecParams) (st : RLState) (n : Node) :
    (stepNode P st n).rcs =
      if !P.caseMap.isEmpty && (P.caseMap.lookup n.addr).isSome then
        match P.caseMap.lookup n.addr with
        | some switchHead =>
            (n.addr, CTerm.eq (createJumpTargetVar P.archBits switchHead)
              (cBVV n.addr P.archBits)) :: st.rcs
        | none => st.rcs
      else if n.addr == P.headAddr then
        (n.addr, if P.simplifyConditions then simplifyCondition P.oracle cTrue else cTrue)
          :: st.rcs
      else if specStrictlyPostdominatesHead P.g P.headAddr n.addr then
        (n.addr, cTrue) :: st.rcs
      else
        match buildReachingCondition st.rcs P.edgeConds n.addr
            (predecessorAddrs P.g n.addr) none with
        | none => st.rcs
        | some rc =>
            (n.addr, if P.simplifyConditions then simplifyCondition P.oracle rc else rc)
              :: st.rcs := by
  simp only [stepNode]
  by_cases h1 : (!P.caseMap.isEmpty && (P.caseMap.lookup n.addr).isSome) = true
  · simp only [h1, if_true]
    cases P.caseMap.lookup n.addr <;> rfl
  · simp only [Bool.not_eq_true] at h1
    simp only [h1, Bool.false_eq_true, if_false]
    by_cases h2 : (n.addr == P.headAddr) = true
    · simp only [h2, if_true]
    · simp only [Bool.not_eq_true] at h2
      simp only [h2, Bool.false_eq_true, if_false]
      by_cases h3 : specStrictlyPostdominatesHead P.g P.headAddr n.addr = true
      · simp only [h3, if_true]
      · simp only [Bool.not_eq_true] at h3
        simp only [h3, Bool.false_eq_true, if_false]
        cases buildReachingCondition st.rcs P.edgeConds n.addr
          (predecessorAddrs P.g n.addr) none <;> rfl

/-- The jump-table-condition log produced by one `stepNode` visit. -/
theorem stepNode_jtc_def (P : RecParams) (st : RLState) (n : Node) :
    (stepNode P st n).jtc =
      if !P.caseMap.isEmpty && (P.caseMap.lookup n.addr).isSome then
        match P.caseMap.lookup n.addr with
        | some switchHead =>
            st.jtc ++ [(switchHead, CTerm.eq (createJumpTargetVar P.archBits switchHead)
              (cBVV n.addr P.archBits))]
        | none => st.jtc
      else st.jtc := by
  simp only [stepNode]
  by_cases h1 : (!P.caseMap.isEmpty && (P.caseMap.lookup n.addr).isSome) = true
  · simp only [h1, if_true]
    cases P.caseMap.lookup n.addr <;> rfl
  · simp only [Bool.not_eq_true] at h1
    simp only [h1, Bool.false_eq_true, if_false]
    by_cases h2 : (n.addr == P.headAddr) = true
    · simp only [h2, if_true]
    · simp only [Bool.not_eq_true] at h2
      simp only [h2, Bool.false_eq_true, if_false]
      by_cases h3 : specStrictlyPostdominatesHead P.g P.headAddr n.addr = true
      · simp only [h3, if_true]
      · simp only [Bool.not_eq_true] at h3
        simp only [h3, Bool.false_eq_true, if_false]
        cases buildReachingCondition st.rcs P.edgeConds n.addr
          (predecessorAddrs P.g n.addr) none <;> rfl

theorem stepNode_rcs_lookup_ne (P : RecParams) (st : RLState) (n : Node) (a : Nat)
    (h : a ≠ n.addr) : ((stepNode P st n).rcs.lookup a) = st.rcs.lookup a := by
  have hba : (a == n.addr) = false := by simp [h]
  rw [stepNode_rcs_def]
  repeat' split
  all_goals first
  | rfl
  | simp [List.lookup, hba]

theorem goNodes_cons (P : RecParams) (st : RLState) (n : Node) (l : List Node) :
    goNodes P st (n :: l) = goNodes P (stepNode P st n) l := rfl

theorem goNodes_append (P : RecParams) (st : RLState) (l1 l2 : List Node) :
    goNodes P st (l1 ++ l2) = goNodes P (goNodes P st l1) l2 := by
  simp [goNodes, List.foldl_append]

theorem goNodes_rcs_lookup_stable (P : RecParams) :
    ∀ (l : List Node) (st : RLState) (a : Nat), a ∉ l.map Node.addr →
      (goNodes P st l).rcs.lookup a = st.rcs.lookup a := by
  intro l
  induction l with
  | nil => intro st a _; rfl
  | cons n l ih =>
    intro st a h
    simp only [List.map_cons, List.mem_cons] at h
    push_neg at h
    rw [goNodes_cons, ih _ _ h.2]
    exact stepNode_rcs_lookup_ne P st n a h.1

theorem goNodes_rcs_congr (P : RecParams) :
    ∀ (l : List Node) (s1 s2 : RLState), s1.rcs = s2.rcs →
      (goNodes P s1 l).rcs = (goNodes P s2 l).rcs := by
  intro l
  induction l with
  | nil => intro s1 s2 h; exact h
  | cons n l ih =>
    intro s1 s2 h
    rw [goNodes_cons, goNodes_cons]
    apply ih
    rw [stepNode_rcs_def, stepNode_rcs_def, h]

theorem buildReachingCondition_congr (rcs1 rcs2 : List (Nat × CTerm))
    (ec : List ((Nat × Nat) × CTerm)) (na : Nat) :
    ∀ (ps : List Nat) (acc : Option CTerm),
      (∀ p ∈ ps, rcs1.lookup p = rcs2.lookup p) →
      buildReachingCondition rcs1 ec na ps acc = buildReachingCondition rcs2 ec na ps acc := by
  intro ps
  induction ps with
  | nil => intro acc _; rfl
  | cons p ps ih =>
    intro acc h
    unfold buildReachingCondition
    rw [h p (by simp)]
    exact ih _ (fun q hq => h q (by simp [hq]))

theorem goNodes_lookup_at (P : RecParams) (st0 : RLState) (l1 l2 : List Node) (n : Node)
    (hnodup : ((l1 ++ n :: l2).map Node.addr).Nodup) :
    (goNodes P st0 (l1 ++ n :: l2)).rcs.lookup n.addr =
      (stepNode P (goNodes P st0 l1) n).rcs.lookup n.addr := by
  rw [goNodes_append, goNodes_cons]
  apply goNodes_rcs_lookup_stable
  have h2 : (n.addr :: l2.map Node.addr).Nodup := by
    have := hnodup
    rw [List.map_append] at this
    exact (List.nodup_append.mp (by simpa using this)).2.1
  exact (List.nodup_cons.mp h2).1

/-- For any node of the sorted order whose already-visited predecessors
have stable entries, the final table lookup of a processed predecessor
agrees with its value at visit time. -/
theorem goNodes_final_pred_lookup (P : RecParams) (st0 : RLState) (l1 l2 : List Node)
    (n : Node) (p : Nat)
    (hnodup : ((l1 ++ n :: l2).map Node.addr).Nodup)
    (hp : p ∈ l1.map Node.addr) :
    (goNodes P st0 l1).rcs.lookup p = (goNodes P st0 (l1 ++ n :: l2)).rcs.lookup p := by
  have hnd := hnodup
  rw [List.map_append] at hnd
  have hdisj := (List.nodup_append.mp hnd).2.2
  have hpn : p ∉ (n :: l2).map Node.addr := by
    intro hmem
    exact absurd hmem (by simpa using hdisj hp)
  simp only [List.map_cons, List.mem_cons] at hpn
  push_neg at hpn
  rw [goNodes_append, goNodes_cons]
  rw [goNodes_rcs_lookup_stable P l2 _ p hpn.2]
  rw [stepNode_rcs_lookup_ne P _ n p hpn.1]

/-- C1: in `recover_reaching_conditions`, a node that is not the region
head, is not a jump-table entry and does not strictly post-dominate the
head gets as its reaching condition the OR-over-predecessors
accumulation of (that predecessor's already-computed reaching condition
AND the predicate of the edge from it), passed through
`simplify_condition` exactly when `simplify_conditions` is set and
stored raw otherwise (the predecessor conditions read off the final
table agree with the already-computed ones).  Hypotheses state that the
node occurs once in the (spec-modelled) topological order with all its
predecessors before it, as the ordering utility guarantees on the
acyclic graphs this solver receives. -/
theorem reaching_condition_ordinary_node (archBits : Nat) (oracle : SymExpr → SymExpr)
    (st : CPState) (region : CFG) (headAddr : Nat) (caseMap : List (Nat × Nat))
    (simplify : Bool) (g1 : CFG) (edgeConds : List ((Nat × Nat) × CTerm))
    (l1 l2 : List Node) (n : Node)
    (hg : g1 = if !caseMap.isEmpty then removeCrossingEdgesBetweenCases region caseMap
          else region)
    (hec : edgeConds = (recoverEdgeConditions st region).2)
    (hsplit : specTopoSort g1 = l1 ++ n :: l2)
    (hnodup : ((specTopoSort g1).map Node.addr).Nodup)
    (hpreds : ∀ p ∈ predecessorAddrs g1 n.addr, p ∈ l1.map Node.addr)
    (hentry : caseMap.lookup n.addr = none)
    (hhead : n.addr ≠ headAddr)
    (hspd : specStrictlyPostdominatesHead g1 headAddr n.addr = false) :
    (recoverReachingConditions archBits oracle st region headAddr caseMap
        simplify).reachingConditions.lookup n.addr
      = Option.map (fun rc => if simplify then simplifyCondition oracle rc else rc)
          (buildReachingCondition
            (recoverReachingConditions archBits oracle st region headAddr caseMap
              simplify).reachingConditions
            edgeConds n.addr (predecessorAddrs g1 n.addr) none) := by
  subst hg
  subst hec
  rw [hsplit] at hnodup
  simp only [recoverReachingConditions]
  rw [hsplit]
  rw [goNodes_lookup_at _ _ _ _ _ hnodup]
  rw [stepNode_rcs_def]
  have hb1 : (n.addr == headAddr) = false := by simp [hhead]
  simp only [hentry, Option.isSome_none, Bool.and_false, Bool.false_eq_true, if_false,
    hb1, hspd]
  have hcongr := buildReachingCondition_congr
    (goNodes
      { g := if !caseMap.isEmpty then removeCrossingEdgesBetweenCases region caseMap
             else region,
        headAddr := headAddr, caseMap := caseMap, archBits := archBits,
        simplifyConditions := simplify, oracle := oracle,
        edgeConds := (recoverEdgeConditions st region).2 }
      { rcs := [], jtc := (recoverEdgeConditions st region).1.jumpTableConds } l1).rcs
    (goNodes
      { g := if !caseMap.isEmpty then removeCrossingEdgesBetweenCases region caseMap
             else region,
        headAddr := headAddr, caseMap := caseMap, archBits := archBits,
        simplifyConditions := simplify, oracle := oracle,
        edgeConds := (recoverEdgeConditions st region).2 }
      { rcs := [], jtc := (recoverEdgeConditions st region).1.jumpTableConds }
      (l1 ++ n :: l2)).rcs
    (recoverEdgeConditions st region).2 n.addr
    (predecessorAddrs (if !caseMap.isEmpty then removeCrossingEdgesBetweenCases region caseMap
             else region) n.addr) none
    (fun p hp => goNodes_final_pred_lookup _ _ l1 l2 n p hnodup (hpreds p hp))
  rw [← hcongr]
  have hnaddr : n.addr ∉ l1.map Node.addr := by
    rw [List.map_append] at hnodup
    have hdisj := (List.nodup_append.mp hnodup).2.2
    intro hmem
    exact absurd (by simp : n.addr ∈ (n :: l2).map Node.addr) (hdisj hmem)
  cases hbr : buildReachingCondition
      (goNodes
        { g := if !caseMap.isEmpty then removeCrossingEdgesBetweenCases region caseMap
               else region,
          headAddr := headAddr, caseMap := caseMap, archBits := archBits,
          simplifyConditions := simplify, oracle := oracle,
          edgeConds := (recoverEdgeConditions st region).2 }
        { rcs := [], jtc := (recoverEdgeConditions st region).1.jumpTableConds } l1).rcs
      (recoverEdgeConditions st region).2 n.addr
      (predecessorAddrs (if !caseMap.isEmpty then removeCrossingEdgesBetweenCases region caseMap
             else region) n.addr) none with
  | none =>
    simp only [Option.map_none]
    rw [goNodes_rcs_lookup_stable _ _ _ _ hnaddr]
    rfl
  | some rc =>
    simp [List.lookup]

theorem reaching_condition_ordinary_node_witness :
    (recoverReachingConditions 64 idOracle initState gOrd 1 [] false).reachingConditions.lookup 4
      = Option.map (fun rc => if false then simplifyCondition idOracle rc else rc)
          (buildReachingCondition
            (recoverReachingConditions 64 idOracle initState gOrd 1 [] false).reachingConditions
            (recoverEdgeConditions initState gOrd).2 4 (predecessorAddrs gOrd 4) none) :=
  reaching_condition_ordinary_node 64 idOracle initState gOrd 1 [] false gOrd
    (recoverEdgeConditions initState gOrd).2
    [⟨1, []⟩, ⟨2, []⟩, ⟨3, []⟩] [⟨5, []⟩] ⟨4, []⟩
    (by decide) rfl (by decide) (by decide) (by decide) rfl (by decide) (by decide)

theorem simplifyCondition_cTrue (oracle : SymExpr → SymExpr)
    (h : ∀ c, oracle (.symbol c) = .symbol c) :
    simplifyCondition oracle cTrue = cTrue := by
  unfold simplifyCondition
  have hc : (decide (cTrue.depth > 8) || decide (cTrue.varCount > 8)) = false := by decide
  simp only [hc, Bool.false_eq_true, if_false]
  show sympyExprToClaripyAst (oracle (.symbol cTrue)) = cTrue
  rw [h]
  rfl

/-- C2 (amended): in the result of `recover_reaching_conditions`, the
region head is stored as the trivially-true constant (for a minimization
oracle that fixes lone symbols, as `sympy.simplify_logic` does), and
every *non-jump-table-entry* node that strictly post-dominates the head
is stored as the trivially-true constant; in particular, a diamond's
join node `4`, which post-dominates the head, is stored as the constant
true regardless of the branch condition and of the oracle. -/
theorem reaching_condition_trivially_true :
    (∀ (archBits : Nat) (oracle : SymExpr → SymExpr) (st : CPState) (region : CFG)
        (headAddr : Nat) (caseMap : List (Nat × Nat)) (simplify : Bool)
        (g1 : CFG) (l1 l2 : List Node) (n : Node),
      g1 = (if !caseMap.isEmpty then removeCrossingEdgesBetweenCases region caseMap
            else region) →
      specTopoSort g1 = l1 ++ n :: l2 →
      ((specTopoSort g1).map Node.addr).Nodup →
      caseMap.lookup n.addr = none →
      n.addr = headAddr →
      (∀ c, oracle (.symbol c) = .symbol c) →
      (recoverReachingConditions archBits oracle st region headAddr caseMap
          simplify).reachingConditions.lookup n.addr = some cTrue) ∧
    (∀ (archBits : Nat) (oracle : SymExpr → SymExpr) (st : CPState) (region : CFG)
        (headAddr : Nat) (caseMap : List (Nat × Nat)) (simplify : Bool)
        (g1 : CFG) (l1 l2 : List Node) (n : Node),
      g1 = (if !caseMap.isEmpty then removeCrossingEdgesBetweenCases region caseMap
            else region) →
      specTopoSort g1 = l1 ++ n :: l2 →
      ((specTopoSort g1).map Node.addr).Nodup →
      caseMap.lookup n.addr = none →
      n.addr ≠ headAddr →
      specStrictlyPostdominatesHead g1 headAddr n.addr = true →
      (recoverReachingConditions archBits oracle st region headAddr caseMap
          simplify).reachingConditions.lookup n.addr = some cTrue) ∧
    (∀ (c : AilExpr) (oracle : SymExpr → SymExpr),
      (recoverReachingConditions 64 oracle initState (diamondCFG c) 1 []
          true).reachingConditions.lookup 4 = some cTrue) := by
  have pa : ∀ (archBits : Nat) (oracle : SymExpr → SymExpr) (st : CPState) (region : CFG)
      (headAddr : Nat) (caseMap : List (Nat × Nat)) (simplify : Bool)
      (g1 : CFG) (l1 l2 : List Node) (n : Node),
      g1 = (if !caseMap.isEmpty then removeCrossingEdgesBetweenCases region caseMap
            else region) →
      specTopoSort g1 = l1 ++ n :: l2 →
      ((specTopoSort g1).map Node.addr).Nodup →
      caseMap.lookup n.addr = none →
      n.addr = headAddr →
      (∀ c, oracle (.symbol c) = .symbol c) →
      (recoverReachingConditions archBits oracle st region headAddr caseMap
          simplify).reachingConditions.lookup n.addr = some cTrue := by
    intro archBits oracle st region headAddr caseMap simplify g1 l1 l2 n hg hsplit hnodup
      hentry hn horacle
    subst hg
    rw [hsplit] at hnodup
    simp only [recoverReachingConditions]
    rw [hsplit, goNodes_lookup_at _ _ _ _ _ hnodup, stepNode_rcs_def]
    have hb1 : (n.addr == headAddr) = true := by simp [hn]
    simp only [hentry, Option.isSome_none, Bool.and_false, Bool.false_eq_true, if_false,
      hb1, if_true]
    have hsim := simplifyCondition_cTrue oracle horacle
    cases simplify <;> simp [List.lookup, hsim]
  have pb : ∀ (archBits : Nat) (oracle : SymExpr → SymExpr) (st : CPState) (region : CFG)
      (headAddr : Nat) (caseMap : List (Nat × Nat)) (simplify : Bool)
      (g1 : CFG) (l1 l2 : List Node) (n : Node),
      g1 = (if !caseMap.isEmpty then removeCrossingEdgesBetweenCases region caseMap
            else region) →
      specTopoSort g1 = l1 ++ n :: l2 →
      ((specTopoSort g1).map Node.addr).Nodup →
      caseMap.lookup n.addr = none →
      n.addr ≠ headAddr →
      specStrictlyPostdominatesHead g1 headAddr n.addr = true →
      (recoverReachingConditions archBits oracle st region headAddr caseMap
          simplify).reachingConditions.lookup n.addr = some cTrue := by
    intro archBits oracle st region headAddr caseMap simplify g1 l1 l2 n hg hsplit hnodup
      hentry hn hspd
    subst hg
    rw [hsplit] at hnodup
    simp only [recoverReachingConditions]
    rw [hsplit, goNodes_lookup_at _ _ _ _ _ hnodup, stepNode_rcs_def]
    have hb1 : (n.addr == headAddr) = false := by simp [hn]
    simp only [hentry, Option.isSome_none, Bool.and_false, Bool.false_eq_true, if_false,
      hb1, hspd, if_true]
    simp [List.lookup]
  refine ⟨pa, pb, ?_⟩
  intro c oracle
  exact pb 64 oracle initState (diamondCFG c) 1 [] true (diamondCFG c)
    [⟨1, [.condJump c (.const 2 64) (.const 3 64) 100]⟩,
     ⟨2, [.jump (.const 4 64) 200]⟩, ⟨3, [.jump (.const 4 64) 300]⟩] [] ⟨4, []⟩
    rfl rfl (by show ([1, 2, 3, 4] : List Nat).Nodup; decide) rfl (by decide) rfl

theorem reaching_condition_trivially_true_witness :
    (recoverReachingConditions 64 idOracle initState (diamondCFG sampleCond) 1 []
        true).reachingConditions.lookup 1 = some cTrue ∧
    (recoverReachingConditions 64 idOracle initState (diamondCFG sampleCond) 1 []
        true).reachingConditions.lookup 4 = some cTrue :=
  ⟨reaching_condition_trivially_true.1 64 idOracle initState (diamondCFG sampleCond) 1 [] true
      (diamondCFG sampleCond) []
      [⟨2, [.jump (.const 4 64) 200]⟩, ⟨3, [.jump (.const 4 64) 300]⟩, ⟨4, []⟩]
      ⟨1, [.condJump sampleCond (.const 2 64) (.const 3 64) 100]⟩
      (by decide) (by decide) (by decide) (by decide) (by decide) (fun _ => rfl),
   reaching_condition_trivially_true.2.2 sampleCond idOracle⟩

/-- C2 (counterexample to the claim as stated): on the region `gJT`
with the case-entry map `{2 ↦ 9}`, node `2` strictly post-dominates the
head, yet — because the jump-table-entry branch takes precedence — its
recorded reaching condition is the dispatch-variable equality, not the
trivially-true constant. -/
theorem reaching_condition_trivially_true_cx :
    specStrictlyPostdominatesHead gJT 1 2 = true ∧
    runJT.reachingConditions.lookup 2 =
      some (.eq (createJumpTargetVar 64 9) (cBVV 2 64)) ∧
    runJT.reachingConditions.lookup 2 ≠ some cTrue :=
  ⟨by decide, by decide, by decide⟩

theorem conv_jtc (e : AilExpr) : ∀ (st : CPState) (nb mb : Bool) (ia : Nat),
    (claripyAstFromAilCondition st e nb mb ia).1.jumpTableConds = st.jumpTableConds := by
  induction e with
  | const v b =>
    intro st nb mb ia
    cases hb : (b == 1) <;> simp [claripyAstFromAilCondition, hb]
  | register i ro b => intro st nb mb ia; rfl
  | binop op l r b ihl ihr =>
    intro st nb mb ia
    cases op with
    | other t =>
      simp only [claripyAstFromAilCondition]
      cases mb <;> by_cases hb : b = 1 <;>
        simp [CTerm.isBoolSort, CTerm.bitsOf, hb, CPState.addMapping]
    | cmpEQ =>
      simp only [claripyAstFromAilCondition]
      cases nb <;> cases mb <;>
        simp [CTerm.isBoolSort, CTerm.bitsOf, CPState.addMapping, ihl, ihr]

theorem extract_jtc (st : CPState) (b : Node) (d : Nat) (et : EdgeType) :
    (extractPredicate st b d et).1.jumpTableConds = st.jumpTableConds := by
  cases et with
  | exception =>
    simp only [extractPredicate]
    rw [conv_jtc]
  | transition =>
    simp only [extractPredicate]
    cases hls : (if !b.stmts.isEmpty && isHeadControlledLoopBlock b then
        b.stmts.dropLast.find? AilStmt.isCondJump else getLastStatement b) with
    | none => rfl
    | some stmt =>
      cases stmt with
      | jump tgt ia =>
        cases tgt with
        | const v bb => rfl
        | register i ro bb => rw [conv_jtc]
        | binop op x y bb => rw [conv_jtc]
      | condJump c tt ft ia =>
        cases tt with
        | const v bb =>
          cases hvd : (v == d) <;> simp [hvd, conv_jtc]
        | register i ro bb => rw [conv_jtc]
        | binop op x y bb => rw [conv_jtc]
      | assign k => rfl

theorem recoverEdgeCondition_jtc (g : CFG) (st : CPState) (src : Node) (d : Nat) :
    (recoverEdgeCondition g st src d).1.jumpTableConds = st.jumpTableConds := by
  simp only [recoverEdgeCondition]
  rw [extract_jtc]

theorem recEC_inner_jtc (g : CFG) (src : Node) :
    ∀ (ds : List Nat) (p : CPState × List ((Nat × Nat) × CTerm)),
      ((ds.foldl (fun acc2 dstAddr =>
          let r := recoverEdgeCondition g acc2.1 src dstAddr
          (r.1, acc2.2 ++ [((src.addr, dstAddr), r.2)])) p).1.jumpTableConds =
       p.1.jumpTableConds) := by
  intro ds
  induction ds with
  | nil => intro p; rfl
  | cons d ds ih =>
    intro p
    simp only [List.foldl_cons]
    rw [ih]
    exact recoverEdgeCondition_jtc g p.1 src d

theorem recEC_jtc (g : CFG) :
    ∀ (ns : List Node) (p : CPState × List ((Nat × Nat) × CTerm)),
      ((ns.foldl (fun acc src =>
          (successorAddrs g src.addr).foldl (fun acc2 dstAddr =>
            let r := recoverEdgeCondition g acc2.1 src dstAddr
            (r.1, acc2.2 ++ [((src.addr, dstAddr), r.2)])) acc) p).1.jumpTableConds =
       p.1.jumpTableConds) := by
  intro ns
  induction ns with
  | nil => intro p; rfl
  | cons m ns ih =>
    intro p
    simp only [List.foldl_cons]
    rw [ih]
    exact recEC_inner_jtc g m (successorAddrs g m.addr) p

theorem recoverEdgeConditions_jtc (st : CPState) (g : CFG) :
    (recoverEdgeConditions st g).1.jumpTableConds = st.jumpTableConds := by
  unfold recoverEdgeConditions
  exact recEC_jtc g g.nodes (st, [])

theorem goNodes_jtc_mem (P : RecParams) :
    ∀ (l : List Node) (st : RLState) (q : Nat × CTerm), q ∈ (goNodes P st l).jtc →
      q ∈ st.jtc ∨ ∃ a, P.caseMap.lookup a = some q.1 ∧
        q.2 = .eq (createJumpTargetVar P.archBits q.1) (cBVV a P.archBits) := by
  intro l
  induction l with
  | nil => intro st q hq; exact Or.inl hq
  | cons n l ih =>
    intro st q hq
    rw [goNodes_cons] at hq
    rcases ih _ q hq with hmem | hshape
    · rw [stepNode_jtc_def] at hmem
      by_cases h1 : (!P.caseMap.isEmpty && (P.caseMap.lookup n.addr).isSome) = true
      · rw [if_pos h1] at hmem
        cases hl : P.caseMap.lookup n.addr with
        | none => rw [hl] at hmem; exact Or.inl hmem
        | some sh =>
          rw [hl] at hmem
          rcases List.mem_append.mp hmem with hmem2 | hq2
          · exact Or.inl hmem2
          · right
            refine ⟨n.addr, ?_, ?_⟩
            · rw [hl]
              rcases List.mem_singleton.mp hq2 with rfl
              rfl
            · rcases List.mem_singleton.mp hq2 with rfl
              rfl
      · rw [if_neg h1] at hmem
        exact Or.inl hmem
    · exact Or.inr hshape

/-- C4: with a case-entry map, every jump-table entry node is assigned
the equality between the per-table dispatch variable and the entry's
address; every condition logged in the jump-table condition sets of a
run started with empty sets has that shape for some mapped entry
address; and two such equalities on the same table for distinct
(width-bounded) entry addresses are unsatisfiable when conjoined. -/
theorem jump_table_entry_conditions (archBits : Nat) (oracle : SymExpr → SymExpr)
    (st : CPState) (region : CFG) (headAddr : Nat) (caseMap : List (Nat × Nat))
    (simplify : Bool) (g1 : CFG) (l1 l2 : List Node) (n : Node) (switchHead : Nat)
    (hg : g1 = if !caseMap.isEmpty then removeCrossingEdgesBetweenCases region caseMap
          else region)
    (hsplit : specTopoSort g1 = l1 ++ n :: l2)
    (hnodup : ((specTopoSort g1).map Node.addr).Nodup)
    (hlook : caseMap.lookup n.addr = some switchHead)
    (hlt : n.addr < 2 ^ archBits)
    (hjtc0 : st.jumpTableConds = []) :
    ((recoverReachingConditions archBits oracle st region headAddr caseMap
        simplify).reachingConditions.lookup n.addr =
      some (.eq (createJumpTargetVar archBits switchHead) (.bvv n.addr archBits))) ∧
    (∀ q ∈ (recoverReachingConditions archBits oracle st region headAddr caseMap
        simplify).jumpTableConds,
      ∃ a, caseMap.lookup a = some q.1 ∧
        q.2 = .eq (createJumpTargetVar archBits q.1) (cBVV a archBits)) ∧
    (∀ (hd a1 a2 : Nat) (σ : Assignment), a1 < 2 ^ archBits → a2 < 2 ^ archBits →
      a1 ≠ a2 →
      evalB σ (.and [.eq (createJumpTargetVar archBits hd) (cBVV a1 archBits),
                     .eq (createJumpTargetVar archBits hd) (cBVV a2 archBits)]) = false) := by
  subst hg
  rw [hsplit] at hnodup
  have hmapne : caseMap.isEmpty = false := by
    cases caseMap with
    | nil => simp [List.lookup] at hlook
    | cons x xs => rfl
  refine ⟨?_, ?_, ?_⟩
  · simp only [recoverReachingConditions]
    rw [hsplit, goNodes_lookup_at _ _ _ _ _ hnodup, stepNode_rcs_def]
    simp only [hlook, hmapne, Option.isSome_some, Bool.not_false, Bool.and_true, if_true]
    have hmask : cBVV n.addr archBits = .bvv n.addr archBits := by
      simp [cBVV, Nat.mod_eq_of_lt hlt]
    simp [List.lookup, hmask]
  · intro q hq
    simp only [recoverReachingConditions] at hq
    have hinit : (recoverEdgeConditions st region).1.jumpTableConds = [] := by
      rw [recoverEdgeConditions_jtc, hjtc0]
    rcases goNodes_jtc_mem _ _ _ q hq with hmem | hshape
    · rw [hinit] at hmem
      exact absurd hmem (List.not_mem_nil q)
    · exact hshape
  · intro hd a1 a2 σ h1 h2 hne12
    have hm1 : cBVV a1 archBits = .bvv a1 archBits := by simp [cBVV, Nat.mod_eq_of_lt h1]
    have hm2 : cBVV a2 archBits = .bvv a2 archBits := by simp [cBVV, Nat.mod_eq_of_lt h2]
    rw [hm1, hm2]
    simp only [evalB, evalBAll, evalV, createJumpTargetVar, CTerm.isBoolSort,
      Bool.and_true, if_false]
    rw [Nat.mod_eq_of_lt h1, Nat.mod_eq_of_lt h2]
    rcases eq_or_ne (σ.bvVal (.jumpTable hd) % 2 ^ archBits) a1 with he | he
    · have hb2 : (σ.bvVal (.jumpTable hd) % 2 ^ archBits == a2) = false := by
        simp [he, hne12]
      simp [hb2]
    · simp [he]

theorem jump_table_entry_conditions_witness :
    (recoverReachingConditions 64 idOracle initState gJT3 1 mapJT3
        false).reachingConditions.lookup 2 =
      some (.eq (createJumpTargetVar 64 9) (.bvv 2 64)) ∧
    evalB allTrueAsgn (.and [.eq (createJumpTargetVar 64 9) (cBVV 2 64),
        .eq (createJumpTargetVar 64 9) (cBVV 3 64)]) = false :=
  ⟨(jump_table_entry_conditions 64 idOracle initState gJT3 1 mapJT3 false gJT3
      [⟨1, [.jump (.register 3 8 64) 100]⟩] [⟨3, []⟩, ⟨4, []⟩] ⟨2, []⟩ 9
      (by decide) (by decide) (by decide) (by decide) (by decide) rfl).1,
   (jump_table_entry_conditions 64 idOracle initState gJT3 1 mapJT3 false gJT3
      [⟨1, [.jump (.register 3 8 64) 100]⟩] [⟨3, []⟩, ⟨4, []⟩] ⟨2, []⟩ 9
      (by decide) (by decide) (by decide) (by decide) (by decide) rfl).2.2 9 2 3
      allTrueAsgn (by decide) (by decide) (by decide)⟩

/-- C10 (amended): on a region with no exception edges,
`recover_reaching_conditions` produces the same reaching- and
guarding-condition maps from any two processor states — in particular
from a fresh condition mapping each time.  (With exception edges the
persisting exception counter breaks this; see the counterexample.) -/
theorem recover_deterministic_no_exception (archBits : Nat) (oracle : SymExpr → SymExpr)
    (region : CFG) (headAddr : Nat) (caseMap : List (Nat × Nat)) (simplify : Bool)
    (hexc : ∀ e ∈ region.edges, e.etype = .transition) (st st2 : CPState) :
    (recoverReachingConditions archBits oracle st region headAddr caseMap
        simplify).reachingConditions =
      (recoverReachingConditions archBits oracle st2 region headAddr caseMap
        simplify).reachingConditions ∧
    (recoverReachingConditions archBits oracle st region headAddr caseMap
        simplify).guardingConditions =
      (recoverReachingConditions archBits oracle st2 region headAddr caseMap
        simplify).guardingConditions := by
  have hec : (recoverEdgeConditions st region).2 = (recoverEdgeConditions st2 region).2 :=
    recoverEdgeConditions_snd_state_free region hexc st st2
  constructor
  · simp only [recoverReachingConditions]
    rw [hec]
    apply goNodes_rcs_congr
    rfl
  · simp only [recoverReachingConditions]
    rw [hec]

theorem recover_deterministic_no_exception_witness :
    (recoverReachingConditions 64 idOracle initState gOrd 1 [] false).reachingConditions =
      (recoverReachingConditions 64 idOracle ⟨[], 5000, [], [], []⟩ gOrd 1 []
        false).reachingConditions :=
  (recover_deterministic_no_exception 64 idOracle gOrd 1 [] false (by decide)
    initState ⟨[], 5000, [], [], []⟩).1

/-- C10 (counterexample to the claim as stated): two runs on the
unmodified region `gExc`, each starting from a fresh (empty) condition
mapping — the second after `clear()` on the same processor — give
structurally different reaching-condition maps, because the exception
counter persists across the calls and is baked into the exception-edge
predicate. -/
theorem recover_deterministic_cx :
    initState.conditionMapping = [] ∧
    runExc1.clear.conditionMapping = [] ∧
    runExc1.reachingConditions ≠ runExc2.reachingConditions :=
  ⟨rfl, rfl, by decide⟩

end CondProc
